import Mathlib

/-!
Verification of the ARCHIVIS external drive scanner
(`scan_external_drives.py`) against its natural-language specification.

The Python program is shallowly embedded: registry entries, volume
descriptors and naming rules become Lean structures; the registry lookup,
name allocation, registration, timestamp update and directory-tree scan
become pure recursive functions; the interactive confirmation prompt is
modelled by an explicit list of user responses; timestamps are opaque
strings threaded as parameters.
-/

namespace Archivis

/-- One record of the persistent drive registry (`drives.json`,
key `locations`).  All fields mirror the dictionary built in
`DriveScanner.register_new_drive`. -/
structure RegistryEntry where
  id : String
  kind : String
  volume_uuid : String
  device_identifier : String
  name : String
  capacity_bytes : Nat
  first_seen : String
  last_scanned : String
  status : String
deriving DecidableEq, Repr

/-- Transient description of a detected volume, as assembled by
`DriveScanner.get_external_drives`.  An absent UUID or device identifier
is the empty string (Python uses `''`, which is falsy). -/
structure VolumeDescriptor where
  device_identifier : String
  volume_uuid : String
  volume_name : String
  mount_point : String
  capacity_bytes : Nat
  free_bytes : Nat
  file_system : String
deriving DecidableEq, Repr

/-- The naming-rules configuration document (`naming_rules.json`).
Thresholds are modelled as rationals; Python reads them as JSON numbers
and compares them against an exact binary-scaled capacity. -/
structure NamingRules where
  large_drive_threshold_tb : ℚ
  medium_drive_threshold_tb : ℚ
  large_names : List String
  medium_names : List String
  small_names : List String
deriving DecidableEq, Repr

/-- `DriveScanner._get_used_names`: the ids of all registry entries.
Python returns a set; only membership is ever used, so a list suffices. -/
def get_used_names (registry : List RegistryEntry) : List String :=
  registry.map (fun loc => loc.id)

/-- `DriveScanner._get_available_name`: convert capacity to tebibytes
(binary scaling), pick the pool for the first matching tier checked from
largest to smallest, and return the first pool name whose uppercase form
is not an already-used id. -/
def get_available_name (rules : NamingRules) (capacity_bytes : Nat)
    (used_names : List String) : Option String :=
  let capacity_tb : ℚ := (capacity_bytes : ℚ) / (1024 : ℚ) ^ 4
  let name_pool :=
    if capacity_tb ≥ rules.large_drive_threshold_tb then rules.large_names
    else if capacity_tb ≥ rules.medium_drive_threshold_tb then rules.medium_names
    else rules.small_names
  name_pool.find? (fun name => !(used_names.contains name.toUpper))

/-- `DriveScanner._confirm_name`: the interactive confirmation loop.
The stream of user input lines is made explicit as `responses`; an empty
(stripped) line accepts the proposed name, a non-empty line is an
uppercased custom name that is re-prompted while it collides with a used
id.  `none` models an input stream that never yields an acceptable line
(the Python loop would keep prompting). -/
def confirm_name (used_names : List String) (proposed_name : String) :
    List String → Option String
  | [] => none
  | r :: rest =>
    let response := r.trim
    if response = "" then some proposed_name.toUpper
    else
      let custom_name := response.toUpper
      if used_names.contains custom_name then
        confirm_name used_names proposed_name rest
      else some custom_name

/-- `DriveScanner.find_drive_in_registry`: walk the registry in order;
for each entry of kind `external_drive` first compare the (non-empty)
volume UUID, then the (non-empty) device identifier; return the first
entry that matches either key. -/
def find_drive_in_registry (registry : List RegistryEntry)
    (drive_info : VolumeDescriptor) : Option RegistryEntry :=
  match registry with
  | [] => none
  | location :: rest =>
    if location.kind = "external_drive" then
      if drive_info.volume_uuid ≠ "" ∧ location.volume_uuid = drive_info.volume_uuid then
        some location
      else if drive_info.device_identifier ≠ "" ∧
          location.device_identifier = drive_info.device_identifier then
        some location
      else find_drive_in_registry rest drive_info
    else find_drive_in_registry rest drive_info

/-- The matching test applied to one registry entry by
`find_drive_in_registry` (its loop body condenses to this predicate). -/
def matches_entry (drive_info : VolumeDescriptor) (location : RegistryEntry) : Prop :=
  location.kind = "external_drive" ∧
    ((drive_info.volume_uuid ≠ "" ∧ location.volume_uuid = drive_info.volume_uuid) ∨
     (drive_info.device_identifier ≠ "" ∧
       location.device_identifier = drive_info.device_identifier))

instance (d : VolumeDescriptor) (e : RegistryEntry) : Decidable (matches_entry d e) := by
  unfold matches_entry; infer_instance

/-- The in-memory scanner state: the live registry
(`self.registry['locations']`) together with the last registry content
written to disk by `_save_registry` (the persistence collaborator). -/
structure ScannerState where
  registry : List RegistryEntry
  saved : List RegistryEntry
deriving DecidableEq, Repr

/-- `DriveScanner.register_new_drive`: build the new entry (id is the
uppercased name, `first_seen = last_scanned = now`, status `active`),
append it, persist immediately, and return the id. -/
def register_new_drive (s : ScannerState) (drive_info : VolumeDescriptor)
    (name : String) (now : String) : ScannerState × String :=
  let drive_id := name.toUpper
  let entry : RegistryEntry :=
    { id := drive_id
      kind := "external_drive"
      volume_uuid := drive_info.volume_uuid
      device_identifier := drive_info.device_identifier
      name := name
      capacity_bytes := drive_info.capacity_bytes
      first_seen := now
      last_scanned := now
      status := "active" }
  let registry := s.registry ++ [entry]
  ({ registry := registry, saved := registry }, drive_id)

/-- The registry mutation inside `DriveScanner.update_last_scanned`:
set `last_scanned` on the first entry whose id equals `drive_id`
(the Python loop breaks after the first hit) and leave the rest alone. -/
def update_last_scanned_list (registry : List RegistryEntry)
    (drive_id : String) (now : String) : List RegistryEntry :=
  match registry with
  | [] => []
  | location :: rest =>
    if location.id = drive_id then
      { location with last_scanned := now } :: rest
    else location :: update_last_scanned_list rest drive_id now

/-- `DriveScanner.update_last_scanned`: apply the mutation and persist. -/
def update_last_scanned (s : ScannerState) (drive_id : String) (now : String) :
    ScannerState :=
  let registry := update_last_scanned_list s.registry drive_id now
  { registry := registry, saved := registry }

/-- A node of the scanned filesystem: a regular file with its size, or a
directory with its ordered children (the order `Path.iterdir` yields). -/
inductive Entry where
  | file (name : String) (size : Nat)
  | dir (name : String) (children : List Entry)

/-- The name of a filesystem entry. -/
def entryName : Entry → String
  | Entry.file n _ => n
  | Entry.dir n _ => n

/-- `get_dir_size_and_files` (inner helper of `scan_directory_tree`):
total size and count of the regular files anywhere beneath a directory,
given the directory's children; subdirectories are summed recursively. -/
def dirSizeFiles : List Entry → Nat × Nat
  | [] => (0, 0)
  | Entry.file _ sz :: rest =>
    let r := dirSizeFiles rest
    (sz + r.1, 1 + r.2)
  | Entry.dir _ cs :: rest =>
    let d := dirSizeFiles cs
    let r := dirSizeFiles rest
    (d.1 + r.1, d.2 + r.2)

/-- One emitted directory record (the `dir_info` dictionary). -/
structure DirInfo where
  relative_path : String
  depth : Nat
  size_bytes : Nat
  file_count : Nat
deriving DecidableEq, Repr

/-- Join path segments with `/`, as `str(Path.relative_to(root))` renders
a non-root relative path. -/
def joinSegs : List String → String
  | [] => ""
  | [s] => s
  | s :: rest => s ++ "/" ++ joinSegs rest

/-- The rendered relative path: the scan root (`.`) becomes `/`. -/
def renderPath (segs : List String) : String :=
  if segs = [] then "/" else joinSegs segs

mutual
/-- `scan_recursive` (inner helper of `scan_directory_tree`): stop past
`max_depth`, otherwise emit this directory's record (full recursive
size/count, rendered relative path) and, if strictly below `max_depth`,
the records of its subdirectories in order. -/
def scanRecursive (maxDepth : Int) (cs : List Entry) (segs : List String)
    (depth : Nat) : List DirInfo :=
  if (depth : Int) > maxDepth then []
  else
    let sf := dirSizeFiles cs
    { relative_path := renderPath segs, depth := depth,
      size_bytes := sf.1, file_count := sf.2 } ::
      (if (depth : Int) < maxDepth then scanChildren maxDepth cs segs depth else [])
termination_by (sizeOf cs, 1)

/-- The `for item in current_path.iterdir(): if item.is_dir(): ...` loop
of `scan_recursive`: recurse into each subdirectory child in order. -/
def scanChildren (maxDepth : Int) (cs : List Entry) (segs : List String)
    (depth : Nat) : List DirInfo :=
  match cs with
  | [] => []
  | Entry.file _ _ :: rest => scanChildren maxDepth rest segs depth
  | Entry.dir n ccs :: rest =>
    scanRecursive maxDepth ccs (segs ++ [n]) (depth + 1) ++
      scanChildren maxDepth rest segs depth
termination_by (sizeOf cs, 0)
end

/-- `DriveScanner.scan_directory_tree`: scan from the root (depth 0,
relative path `/`), whose children are `tree`. -/
def scan_directory_tree (maxDepth : Int) (tree : List Entry) : List DirInfo :=
  scanRecursive maxDepth tree [] 0

/-- Ghost variant of `DirInfo` carrying the un-rendered segment path,
used to reason about which directory a record came from. -/
structure DirInfoS where
  segs : List String
  depth : Nat
  size_bytes : Nat
  file_count : Nat
deriving DecidableEq, Repr

/-- Render a ghost record into the record the scanner emits. -/
def renderInfo (e : DirInfoS) : DirInfo :=
  { relative_path := renderPath e.segs, depth := e.depth,
    size_bytes := e.size_bytes, file_count := e.file_count }

mutual
/-- Ghost variant of `scanRecursive` that keeps segment paths. -/
def scanS (maxDepth : Int) (cs : List Entry) (segs : List String)
    (depth : Nat) : List DirInfoS :=
  if (depth : Int) > maxDepth then []
  else
    let sf := dirSizeFiles cs
    { segs := segs, depth := depth, size_bytes := sf.1, file_count := sf.2 } ::
      (if (depth : Int) < maxDepth then scanChildrenS maxDepth cs segs depth else [])
termination_by (sizeOf cs, 1)

/-- Ghost variant of `scanChildren`. -/
def scanChildrenS (maxDepth : Int) (cs : List Entry) (segs : List String)
    (depth : Nat) : List DirInfoS :=
  match cs with
  | [] => []
  | Entry.file _ _ :: rest => scanChildrenS maxDepth rest segs depth
  | Entry.dir n ccs :: rest =>
    scanS maxDepth ccs (segs ++ [n]) (depth + 1) ++
      scanChildrenS maxDepth rest segs depth
termination_by (sizeOf cs, 0)
end

/-- A valid filesystem name: non-empty and free of the path separator.
Real directory listings satisfy this. -/
def validSeg (s : String) : Prop := s ≠ "" ∧ '/' ∉ s.data

instance (s : String) : Decidable (validSeg s) := by
  unfold validSeg; infer_instance

mutual
/-- Well-formedness of one filesystem entry: valid name; a directory
additionally has children with pairwise distinct names, recursively
well-formed.  Real filesystems guarantee this (names in one directory
are unique). -/
def wfEntry : Entry → Bool
  | Entry.file n _ => decide (validSeg n)
  | Entry.dir n ccs =>
    decide (validSeg n) && decide ((ccs.map entryName).Nodup) && wfList ccs

/-- All entries of a list are well-formed. -/
def wfList : List Entry → Bool
  | [] => true
  | c :: rest => wfEntry c && wfList rest
end

/-- Well-formedness of a directory tree given by the root's children. -/
def wfTree (cs : List Entry) : Bool :=
  decide ((cs.map entryName).Nodup) && wfList cs

/-- Find the children of the first subdirectory named `n`. -/
def findDir (cs : List Entry) (n : String) : Option (List Entry) :=
  match cs with
  | [] => none
  | Entry.file _ _ :: rest => findDir rest n
  | Entry.dir m ccs :: rest => if m = n then some ccs else findDir rest n

/-- Follow a segment path down the tree, returning the children of the
directory it denotes. -/
def lookupDir (cs : List Entry) : List String → Option (List Entry)
  | [] => some cs
  | n :: rest =>
    match findDir cs n with
    | none => none
    | some ccs => lookupDir ccs rest

/-- Spec-side description of "all regular files reachable at any depth
beneath a directory": the list of their sizes, in traversal order. -/
def fileSizesUnder : List Entry → List Nat
  | [] => []
  | Entry.file _ sz :: rest => sz :: fileSizesUnder rest
  | Entry.dir _ ccs :: rest => fileSizesUnder ccs ++ fileSizesUnder rest

mutual
/-- Spec-side count of the directories at depth at most `maxDepth` in
the tree whose root (counted, at depth `depth`) has children `cs`. -/
def numDirsUpTo (maxDepth : Int) (depth : Nat) (cs : List Entry) : Nat :=
  if (depth : Int) > maxDepth then 0
  else 1 + numDirsChildren maxDepth depth cs
termination_by (sizeOf cs, 1)

/-- Sum of the bounded directory counts of the subdirectory children. -/
def numDirsChildren (maxDepth : Int) (depth : Nat) (cs : List Entry) : Nat :=
  match cs with
  | [] => 0
  | Entry.file _ _ :: rest => numDirsChildren maxDepth depth rest
  | Entry.dir _ ccs :: rest =>
    numDirsUpTo maxDepth (depth + 1) ccs + numDirsChildren maxDepth depth rest
termination_by (sizeOf cs, 0)
end

/-- `b` denotes a directory strictly below the one `a` denotes: both are
rendered segment paths and `a`'s segments are a proper prefix of `b`'s. -/
def strictDescendantPath (a b : String) : Prop :=
  ∃ sa sb : List String, (∀ s ∈ sa, validSeg s) ∧ (∀ s ∈ sb, validSeg s) ∧
    a = renderPath sa ∧ b = renderPath sb ∧ sa <+: sb ∧ sa ≠ sb

/-- The snapshot document (`save_snapshot` serializes this). -/
structure Snapshot where
  drive_id : String
  scan_date : String
  device_identifier : String
  volume_uuid : String
  volume_name : String
  mount_point : String
  capacity_bytes : Nat
  free_bytes : Nat
  file_system : String
  directories : List DirInfo
deriving DecidableEq, Repr

/-- `DriveScanner.save_snapshot`: assemble the snapshot record for one
drive's scan. -/
def save_snapshot (drive_id : String) (now : String) (drive_info : VolumeDescriptor)
    (directories : List DirInfo) : Snapshot :=
  { drive_id := drive_id
    scan_date := now
    device_identifier := drive_info.device_identifier
    volume_uuid := drive_info.volume_uuid
    volume_name := drive_info.volume_name
    mount_point := drive_info.mount_point
    capacity_bytes := drive_info.capacity_bytes
    free_bytes := drive_info.free_bytes
    file_system := drive_info.file_system
    directories := directories }

/-- Everything one detected volume contributes to a run: its descriptor,
the directory tree at its mount point, the user's confirmation input
lines, and the wall-clock timestamp while it is processed. -/
structure DriveInput where
  descriptor : VolumeDescriptor
  tree : List Entry
  responses : List String
  now : String

/-- The per-volume body of `DriveScanner.scan_all_drives`: resolve the
volume against the registry; a known volume keeps its id, an unknown one
goes through allocation, confirmation and registration (`continue`, i.e.
no state change and no snapshot, when allocation finds no name); then the
tree is scanned at depth bound 2, a snapshot is produced and
`last_scanned` is updated and persisted.  The `none` branch of
`confirm_name` models an input stream that never yields an acceptable
name, on which the Python prompt would loop forever. -/
def process_drive (rules : NamingRules) (inp : DriveInput) (s : ScannerState) :
    ScannerState × Option (String × Snapshot) :=
  match find_drive_in_registry s.registry inp.descriptor with
  | some existing_entry =>
    let drive_id := existing_entry.id
    let directories := scan_directory_tree 2 inp.tree
    let snap := save_snapshot drive_id inp.now inp.descriptor directories
    (update_last_scanned s drive_id inp.now, some (drive_id, snap))
  | none =>
    match get_available_name rules inp.descriptor.capacity_bytes
        (get_used_names s.registry) with
    | none => (s, none)
    | some proposed_name =>
      match confirm_name (get_used_names s.registry) proposed_name inp.responses with
      | none => (s, none)
      | some confirmed_name =>
        let r := register_new_drive s inp.descriptor confirmed_name inp.now
        let directories := scan_directory_tree 2 inp.tree
        let snap := save_snapshot r.2 inp.now inp.descriptor directories
        (update_last_scanned r.1 r.2 inp.now, some (r.2, snap))

/-- `DriveScanner.scan_all_drives`: process the detected volumes in
order, threading the registry state, collecting each volume's outcome. -/
def scan_all_drives (rules : NamingRules) (inputs : List DriveInput)
    (s : ScannerState) : ScannerState × List (Option (String × Snapshot)) :=
  match inputs with
  | [] => (s, [])
  | inp :: rest =>
    let r := process_drive rules inp s
    let w := scan_all_drives rules rest r.1
    (w.1, r.2 :: w.2)

/-- The registry states reachable by the program's registry operations
from the empty registry `_load_registry` creates on first use: registering
a drive whose uppercased name is not yet a used id (the only way
`scan_all_drives` calls `register_new_drive`, since both the allocator and
the custom-name collision check reject used uppercase forms), and
updating a `last_scanned` timestamp. -/
inductive Reachable : ScannerState → Prop where
  | init : Reachable { registry := [], saved := [] }
  | register (s : ScannerState) (drive_info : VolumeDescriptor)
      (name now : String) : Reachable s →
      name.toUpper ∉ get_used_names s.registry →
      Reachable (register_new_drive s drive_info name now).1
  | update (s : ScannerState) (drive_id now : String) : Reachable s →
      Reachable (update_last_scanned s drive_id now)

/-! ### Helper lemmas: registry lookup -/

theorem find_skip {d : VolumeDescriptor} {x : RegistryEntry}
    (hx : ¬ matches_entry d x) (rest : List RegistryEntry) :
    find_drive_in_registry (x :: rest) d = find_drive_in_registry rest d := by
  by_cases hk : x.kind = "external_drive"
  · by_cases hu : d.volume_uuid ≠ "" ∧ x.volume_uuid = d.volume_uuid
    · exact absurd ⟨hk, Or.inl hu⟩ hx
    · by_cases hv : d.device_identifier ≠ "" ∧ x.device_identifier = d.device_identifier
      · exact absurd ⟨hk, Or.inr hv⟩ hx
      · simp only [find_drive_in_registry, if_pos hk, if_neg hu, if_neg hv]
  · simp only [find_drive_in_registry, if_neg hk]

theorem find_matches_head {d : VolumeDescriptor} {x : RegistryEntry}
    (hx : matches_entry d x) (rest : List RegistryEntry) :
    find_drive_in_registry (x :: rest) d = some x := by
  obtain ⟨hk, hcase⟩ := hx
  unfold find_drive_in_registry
  rw [if_pos hk]
  rcases hcase with hu | hd
  · rw [if_pos hu]
  · by_cases hu : d.volume_uuid ≠ "" ∧ x.volume_uuid = d.volume_uuid
    · rw [if_pos hu]
    · rw [if_neg hu, if_pos hd]

theorem find_unique {d : VolumeDescriptor} {e : RegistryEntry} :
    ∀ {l : List RegistryEntry}, e ∈ l → matches_entry d e →
    (∀ x ∈ l, matches_entry d x → x = e) →
    find_drive_in_registry l d = some e := by
  intro l
  induction l with
  | nil => intro h; exact absurd h (List.not_mem_nil e)
  | cons x rest ih =>
    intro hmem hm huniq
    by_cases hx : matches_entry d x
    · rw [find_matches_head hx]
      rw [huniq x (List.mem_cons_self x rest) hx]
    · rw [find_skip hx]
      have hne : e ≠ x := fun h => hx (h ▸ hm)
      have : e ∈ rest := by
        rcases List.mem_cons.mp hmem with h | h
        · exact absurd h hne
        · exact h
      exact ih this hm (fun y hy hmy => huniq y (List.mem_cons_of_mem x hy) hmy)

/-! ### Helper lemmas: find? decomposition and contains -/

theorem findP_decomp {α : Type} {p : α → Bool} :
    ∀ {l : List α} {a : α}, l.find? p = some a →
    ∃ pre post, l = pre ++ a :: post ∧ ∀ x ∈ pre, p x = false := by
  intro l
  induction l with
  | nil => intro a h; exact absurd h (by simp)
  | cons x rest ih =>
    intro a h
    by_cases hx : p x
    · rw [List.find?_cons_of_pos rest hx] at h
      obtain rfl : x = a := by injection h
      exact ⟨[], rest, rfl, by simp⟩
    · rw [List.find?_cons_of_neg rest (by simpa using hx)] at h
      obtain ⟨pre, post, heq, hpre⟩ := ih h
      refine ⟨x :: pre, post, by rw [heq]; rfl, ?_⟩
      intro y hy
      rcases List.mem_cons.mp hy with rfl | hy
      · simpa using hx
      · exact hpre y hy

theorem contains_iff_mem (l : List String) (a : String) :
    l.contains a = true ↔ a ∈ l := by
  simp [List.contains_iff_exists_mem_beq]

/-! ### Claim C1 (identity resolution key priority) -/

/-- Claim C1 as stated is false on the code: matching is per-entry in
registry order, not volume-UUID-first across the whole registry.  With an
earlier entry matching only by device identifier and a later entry
matching the descriptor's UUID, the earlier entry's id is returned. -/
theorem C1_counterexample :
    let e1 : RegistryEntry :=
      { id := "ALPHA", kind := "external_drive", volume_uuid := "UUID-X",
        device_identifier := "disk2s1", name := "Alpha", capacity_bytes := 1000,
        first_seen := "t0", last_scanned := "t0", status := "active" }
    let e2 : RegistryEntry :=
      { id := "NOVA", kind := "external_drive", volume_uuid := "ABC-123",
        device_identifier := "disk3s1", name := "Nova", capacity_bytes := 2000,
        first_seen := "t1", last_scanned := "t1", status := "active" }
    let d : VolumeDescriptor :=
      { device_identifier := "disk2s1", volume_uuid := "ABC-123",
        volume_name := "V", mount_point := "/Volumes/V", capacity_bytes := 2000,
        free_bytes := 0, file_system := "apfs" }
    d.volume_uuid ≠ "" ∧ e2.kind = "external_drive" ∧
      e2.volume_uuid = d.volume_uuid ∧
      (find_drive_in_registry [e1, e2] d).map RegistryEntry.id = some ("ALPHA") ∧
      ("ALPHA" : String) ≠ e2.id := by
  decide

/-- Claim C1, amended: `find_drive_in_registry` scans entries in registry
order, checking for each entry of kind `external_drive` the non-empty
volume UUID first and then the non-empty device identifier; the first
matching entry is returned.  A descriptor whose UUID equals a registered
entry's UUID therefore resolves to that entry — whatever the descriptor's
device identifier — provided no earlier registry entry matches by either
key; the registry itself is read, never mutated. -/
theorem C1_amended_theorem (pre post : List RegistryEntry) (e : RegistryEntry)
    (d : VolumeDescriptor) (h1 : d.volume_uuid ≠ "")
    (h2 : e.kind = "external_drive") (h3 : e.volume_uuid = d.volume_uuid)
    (h4 : ∀ x ∈ pre, ¬ matches_entry d x) :
    find_drive_in_registry (pre ++ e :: post) d = some e := by
  induction pre with
  | nil => exact find_matches_head ⟨h2, Or.inl ⟨h1, h3⟩⟩ post
  | cons x pre' ih =>
    rw [List.cons_append, find_skip (h4 x (List.mem_cons_self x pre'))]
    exact ih (fun y hy => h4 y (List.mem_cons_of_mem x hy))

theorem C1_amended_witness :
    find_drive_in_registry
      [{ id := "NOVA", kind := "external_drive", volume_uuid := "ABC-123",
         device_identifier := "disk3s1", name := "Nova", capacity_bytes := 2000,
         first_seen := "t1", last_scanned := "t1", status := "active" }]
      { device_identifier := "disk9s9", volume_uuid := "ABC-123",
        volume_name := "V", mount_point := "/Volumes/V", capacity_bytes := 2000,
        free_bytes := 0, file_system := "apfs" } =
      some { id := "NOVA", kind := "external_drive", volume_uuid := "ABC-123",
             device_identifier := "disk3s1", name := "Nova", capacity_bytes := 2000,
             first_seen := "t1", last_scanned := "t1", status := "active" } :=
  C1_amended_theorem [] [] _ _ (by decide) (by decide) (by decide)
    (by intro x hx; exact absurd hx (List.not_mem_nil x))

/-! ### Claim C2 (idempotence and order-independence) -/

/-- Claim C2 as stated is false on the code: when two entries match the
same descriptor by different keys, the resolved id depends on registry
order, so resolution is not permutation-independent. -/
theorem C2_counterexample :
    let ea : RegistryEntry :=
      { id := "A1", kind := "external_drive", volume_uuid := "UU-1",
        device_identifier := "", name := "A", capacity_bytes := 1,
        first_seen := "t0", last_scanned := "t0", status := "active" }
    let eb : RegistryEntry :=
      { id := "B1", kind := "external_drive", volume_uuid := "",
        device_identifier := "disk9s1", name := "B", capacity_bytes := 2,
        first_seen := "t1", last_scanned := "t1", status := "active" }
    let d : VolumeDescriptor :=
      { device_identifier := "disk9s1", volume_uuid := "UU-1",
        volume_name := "V", mount_point := "/Volumes/V", capacity_bytes := 2,
        free_bytes := 0, file_system := "apfs" }
    List.Perm [ea, eb] [eb, ea] ∧
      (find_drive_in_registry [ea, eb] d).map RegistryEntry.id = some ("A1") ∧
      (find_drive_in_registry [eb, ea] d).map RegistryEntry.id = some ("B1") ∧
      ("A1" : String) ≠ "B1" := by
  decide

/-- Claim C2, amended: resolution is a pure function of the descriptor
and the registry (re-resolving is trivially stable), and it is
order-independent exactly on registries in which at most one entry
matches the descriptor: if `e` is the unique matching entry, every
permutation of the registry resolves to `e`'s id. -/
theorem C2_amended_theorem (registry registry' : List RegistryEntry)
    (d : VolumeDescriptor) (e : RegistryEntry)
    (hperm : registry.Perm registry') (hmem : e ∈ registry)
    (hm : matches_entry d e)
    (huniq : ∀ x ∈ registry, matches_entry d x → x = e) :
    find_drive_in_registry registry d = some e ∧
      find_drive_in_registry registry' d = some e := by
  refine ⟨find_unique hmem hm huniq, ?_⟩
  exact find_unique (hperm.mem_iff.mp hmem) hm
    (fun x hx hmx => huniq x (hperm.mem_iff.mpr hx) hmx)

theorem C2_amended_witness :
    find_drive_in_registry
      [{ id := "B1", kind := "external_drive", volume_uuid := "",
         device_identifier := "disk9s1", name := "B", capacity_bytes := 2,
         first_seen := "t1", last_scanned := "t1", status := "active" },
       { id := "A1", kind := "external_drive", volume_uuid := "UU-1",
         device_identifier := "", name := "A", capacity_bytes := 1,
         first_seen := "t0", last_scanned := "t0", status := "active" }]
      { device_identifier := "", volume_uuid := "UU-1", volume_name := "V",
        mount_point := "/Volumes/V", capacity_bytes := 2, free_bytes := 0,
        file_system := "apfs" } =
      some { id := "A1", kind := "external_drive", volume_uuid := "UU-1",
             device_identifier := "", name := "A", capacity_bytes := 1,
             first_seen := "t0", last_scanned := "t0", status := "active" } :=
  (C2_amended_theorem
    [{ id := "A1", kind := "external_drive", volume_uuid := "UU-1",
       device_identifier := "", name := "A", capacity_bytes := 1,
       first_seen := "t0", last_scanned := "t0", status := "active" },
     { id := "B1", kind := "external_drive", volume_uuid := "",
       device_identifier := "disk9s1", name := "B", capacity_bytes := 2,
       first_seen := "t1", last_scanned := "t1", status := "active" }]
    [{ id := "B1", kind := "external_drive", volume_uuid := "",
       device_identifier := "disk9s1", name := "B", capacity_bytes := 2,
       first_seen := "t1", last_scanned := "t1", status := "active" },
     { id := "A1", kind := "external_drive", volume_uuid := "UU-1",
       device_identifier := "", name := "A", capacity_bytes := 1,
       first_seen := "t0", last_scanned := "t0", status := "active" }]
    { device_identifier := "", volume_uuid := "UU-1", volume_name := "V",
      mount_point := "/Volumes/V", capacity_bytes := 2, free_bytes := 0,
      file_system := "apfs" }
    { id := "A1", kind := "external_drive", volume_uuid := "UU-1",
      device_identifier := "", name := "A", capacity_bytes := 1,
      first_seen := "t0", last_scanned := "t0", status := "active" }
    (by decide) (by decide) (by decide) (by decide)).2

/-! ### Claim C3 (capacity-tiered name allocation) -/

/-- Claim C3: the allocator converts capacity to tebibytes by dividing by
1024^4, selects the pool of the first tier matching from largest to
smallest, and returns the first name of that pool whose uppercase form is
unused — `none` exactly when the whole selected pool is used.  It never
returns a used name and never takes a name from another tier's pool. -/
theorem C3_theorem (rules : NamingRules) (capacity_bytes : Nat)
    (used_names : List String) :
    let capacity_tb : ℚ := (capacity_bytes : ℚ) / (1024 : ℚ) ^ 4
    let pool :=
      if capacity_tb ≥ rules.large_drive_threshold_tb then rules.large_names
      else if capacity_tb ≥ rules.medium_drive_threshold_tb then rules.medium_names
      else rules.small_names
    (get_available_name rules capacity_bytes used_names = none ↔
      ∀ n ∈ pool, n.toUpper ∈ used_names) ∧
    ∀ r, get_available_name rules capacity_bytes used_names = some r →
      r ∈ pool ∧ r.toUpper ∉ used_names ∧
      ∃ pre post, pool = pre ++ r :: post ∧ ∀ n ∈ pre, n.toUpper ∈ used_names := by
  intro capacity_tb pool
  have hga : get_available_name rules capacity_bytes used_names =
      pool.find? (fun name => !(used_names.contains name.toUpper)) := rfl
  rw [hga]
  constructor
  · rw [List.find?_eq_none]
    constructor
    · intro h n hn
      have := h n hn
      exact (contains_iff_mem _ _).mp (by simpa using this)
    · intro h n hn
      have := (contains_iff_mem used_names n.toUpper).mpr (h n hn)
      simp [this]
      exact h n hn
  · intro r hr
    have hp := List.find?_some hr
    have hmem := List.mem_of_find?_eq_some hr
    have hnot : r.toUpper ∉ used_names := by
      intro hin
      rw [(contains_iff_mem used_names r.toUpper).mpr hin] at hp
      simp at hp
    obtain ⟨pre, post, heq, hpre⟩ := findP_decomp hr
    refine ⟨hmem, hnot, pre, post, heq, ?_⟩
    intro n hn
    have := hpre n hn
    simp at this
    exact this

theorem C3_eval :
    get_available_name
      { large_drive_threshold_tb := 4, medium_drive_threshold_tb := 1,
        large_names := ["HULK"], medium_names := ["NOVA", "ARES"],
        small_names := ["ANT"] }
      2199023255552 ["NOVA"] = some ("ARES") := by
  have h4 : ¬ (((2199023255552 : Nat) : ℚ) / (1024 : ℚ) ^ 4 ≥ (4 : ℚ)) := by
    norm_num
  have h1 : ((2199023255552 : Nat) : ℚ) / (1024 : ℚ) ^ 4 ≥ (1 : ℚ) := by
    norm_num
  have hga : get_available_name
      { large_drive_threshold_tb := 4, medium_drive_threshold_tb := 1,
        large_names := ["HULK"], medium_names := ["NOVA", "ARES"],
        small_names := ["ANT"] }
      2199023255552 ["NOVA"] =
      (if ((2199023255552 : Nat) : ℚ) / (1024 : ℚ) ^ 4 ≥ (4 : ℚ) then ["HULK"]
       else if ((2199023255552 : Nat) : ℚ) / (1024 : ℚ) ^ 4 ≥ (1 : ℚ) then
         ["NOVA", "ARES"]
       else ["ANT"]).find?
        (fun name => !((["NOVA"] : List String).contains name.toUpper)) := rfl
  rw [hga, if_neg h4, if_pos h1]
  have hn : String.toUpper ("NOVA") = "NOVA" := by
    simp only [String.toUpper, String.map_eq]
    decide
  have ha : String.toUpper ("ARES") = "ARES" := by
    simp only [String.toUpper, String.map_eq]
    decide
  rw [List.find?_cons_of_neg _ (by rw [hn]; decide),
    List.find?_cons_of_pos _ (by rw [ha]; decide)]

theorem C3_witness : ("ARES" : String).toUpper ∉ (["NOVA"] : List String) :=
  ((C3_theorem
    { large_drive_threshold_tb := 4, medium_drive_threshold_tb := 1,
      large_names := ["HULK"], medium_names := ["NOVA", "ARES"],
      small_names := ["ANT"] }
    2199023255552 ["NOVA"]).2 ("ARES") C3_eval).2.1

/-! ### Claim C9 (frame property of the timestamp update) -/

/-- Claim C9: updating `last_scanned` for `drive_id` rewrites only that
field of the first entry whose id is `drive_id` — all its other fields
and all other entries are untouched — and a registry without that id is
returned unchanged. -/
theorem C9_theorem (drive_id now : String) :
    (∀ registry : List RegistryEntry, (∀ x ∈ registry, x.id ≠ drive_id) →
      update_last_scanned_list registry drive_id now = registry) ∧
    (∀ (pre post : List RegistryEntry) (e : RegistryEntry), e.id = drive_id →
      (∀ x ∈ pre, x.id ≠ drive_id) →
      update_last_scanned_list (pre ++ e :: post) drive_id now =
        pre ++ { e with last_scanned := now } :: post) := by
  constructor
  · intro registry
    induction registry with
    | nil => intro _; rfl
    | cons x rest ih =>
      intro h
      unfold update_last_scanned_list
      rw [if_neg (h x (List.mem_cons_self x rest)),
        ih (fun y hy => h y (List.mem_cons_of_mem x hy))]
  · intro pre
    induction pre with
    | nil =>
      intro post e he _
      unfold update_last_scanned_list
      simp [he]
    | cons x pre' ih =>
      intro post e he hpre
      rw [List.cons_append]
      unfold update_last_scanned_list
      rw [if_neg (hpre x (List.mem_cons_self x pre')),
        ih post e he (fun y hy => hpre y (List.mem_cons_of_mem x hy))]
      rfl

theorem C9_witness :
    update_last_scanned_list
      [{ id := "NOVA", kind := "external_drive", volume_uuid := "u1",
         device_identifier := "d1", name := "Nova", capacity_bytes := 5,
         first_seen := "t0", last_scanned := "t0", status := "active" },
       { id := "ARES", kind := "external_drive", volume_uuid := "u2",
         device_identifier := "d2", name := "Ares", capacity_bytes := 7,
         first_seen := "t1", last_scanned := "t1", status := "active" }]
      "ARES" "t9" =
      [{ id := "NOVA", kind := "external_drive", volume_uuid := "u1",
         device_identifier := "d1", name := "Nova", capacity_bytes := 5,
         first_seen := "t0", last_scanned := "t0", status := "active" },
       { id := "ARES", kind := "external_drive", volume_uuid := "u2",
         device_identifier := "d2", name := "Ares", capacity_bytes := 7,
         first_seen := "t1", last_scanned := "t9", status := "active" }] :=
  (C9_theorem ("ARES") ("t9")).2
    [{ id := "NOVA", kind := "external_drive", volume_uuid := "u1",
       device_identifier := "d1", name := "Nova", capacity_bytes := 5,
       first_seen := "t0", last_scanned := "t0", status := "active" }] []
    { id := "ARES", kind := "external_drive", volume_uuid := "u2",
      device_identifier := "d2", name := "Ares", capacity_bytes := 7,
      first_seen := "t1", last_scanned := "t1", status := "active" }
    (by decide) (by decide)

/-! ### Helper lemmas: uppercase idempotence -/

theorem char_toUpper_toUpper (c : Char) : c.toUpper.toUpper = c.toUpper := by
  unfold Char.toUpper
  by_cases h : c.toNat ≥ 97 ∧ c.toNat ≤ 122
  · rw [if_pos h]
    have hval : (Char.ofNat (c.toNat - 32)).toNat = c.toNat - 32 := by
      rw [Char.ofNat, dif_pos (Or.inl (by omega))]
      rfl
    rw [if_neg]
    rw [hval]
    omega
  · rw [if_neg h, if_neg h]

theorem string_toUpper_toUpper (s : String) : s.toUpper.toUpper = s.toUpper := by
  simp only [String.toUpper, String.map_eq, List.map_map]
  apply congrArg
  apply List.map_congr_left
  intro c _
  exact char_toUpper_toUpper c

/-! ### Helper lemmas: registry mutations preserve ids -/

theorem update_map_id (registry : List RegistryEntry) (drive_id now : String) :
    (update_last_scanned_list registry drive_id now).map (fun e => e.id) =
      registry.map (fun e => e.id) := by
  induction registry with
  | nil => rfl
  | cons x rest ih =>
    unfold update_last_scanned_list
    by_cases hx : x.id = drive_id
    · rw [if_pos hx]
      rfl
    · rw [if_neg hx]
      simp [ih]

theorem update_mem_id {registry : List RegistryEntry} {drive_id now : String}
    {x : RegistryEntry} (hx : x ∈ update_last_scanned_list registry drive_id now) :
    ∃ e ∈ registry, x.id = e.id := by
  induction registry with
  | nil => exact absurd hx (List.not_mem_nil x)
  | cons y rest ih =>
    unfold update_last_scanned_list at hx
    by_cases hy : y.id = drive_id
    · rw [if_pos hy] at hx
      rcases List.mem_cons.mp hx with rfl | hx
      · exact ⟨y, List.mem_cons_self y rest, rfl⟩
      · exact ⟨x, List.mem_cons_of_mem y hx, rfl⟩
    · rw [if_neg hy] at hx
      rcases List.mem_cons.mp hx with rfl | hx
      · exact ⟨x, List.mem_cons_self x rest, rfl⟩
      · obtain ⟨e, he, heq⟩ := ih hx
        exact ⟨e, List.mem_cons_of_mem y he, heq⟩

theorem reachable_inv {s : ScannerState} (h : Reachable s) :
    (∀ e ∈ s.registry, e.id.toUpper = e.id) ∧
      (s.registry.map (fun e => e.id)).Nodup := by
  induction h with
  | init => exact ⟨by intro e he; exact absurd he (List.not_mem_nil e), by simp⟩
  | register s d name now hr hnotin ih =>
    constructor
    · intro e he
      rcases List.mem_append.mp he with he | he
      · exact ih.1 e he
      · have : e.id = name.toUpper := by
          rcases List.mem_singleton.mp he with rfl
          rfl
        rw [this, string_toUpper_toUpper]
    · have hmap : ((register_new_drive s d name now).1.registry).map
          (fun e => e.id) = s.registry.map (fun e => e.id) ++ [name.toUpper] := by
        simp [register_new_drive]
      rw [hmap]
      refine List.Nodup.append ih.2 (by simp) ?_
      intro a ha hb
      rcases List.mem_singleton.mp hb with rfl
      exact hnotin ha
  | update s drive_id now hr ih =>
    constructor
    · intro e he
      obtain ⟨e', he', heq⟩ := update_mem_id he
      rw [heq]
      exact ih.1 e' he'
    · have : ((update_last_scanned s drive_id now).registry).map (fun e => e.id) =
          s.registry.map (fun e => e.id) := update_map_id s.registry drive_id now
      rw [this]
      exact ih.2

/-! ### Claim C6 (skip volume when allocation fails) -/

/-- Claim C6: when a volume is unknown and the allocator returns no name,
the volume is skipped entirely — the scanner state (registry and its
persisted copy) is unchanged and no snapshot is produced — and the run
continues over the remaining volumes exactly as it would have without
this volume. -/
theorem C6_theorem (rules : NamingRules) (inp : DriveInput)
    (rest : List DriveInput) (s : ScannerState)
    (hfind : find_drive_in_registry s.registry inp.descriptor = none)
    (halloc : get_available_name rules inp.descriptor.capacity_bytes
      (get_used_names s.registry) = none) :
    process_drive rules inp s = (s, none) ∧
      scan_all_drives rules (inp :: rest) s =
        ((scan_all_drives rules rest s).1,
          none :: (scan_all_drives rules rest s).2) := by
  have hp : process_drive rules inp s = (s, none) := by
    unfold process_drive
    rw [hfind, halloc]
  refine ⟨hp, ?_⟩
  conv =>
    left
    unfold scan_all_drives
  rw [hp]

theorem C6_eval :
    get_available_name
      { large_drive_threshold_tb := 4, medium_drive_threshold_tb := 1,
        large_names := [], medium_names := [], small_names := [] }
      0 [] = none := by
  have h4 : ¬ (((0 : Nat) : ℚ) / (1024 : ℚ) ^ 4 ≥ (4 : ℚ)) := by norm_num
  have h1 : ¬ (((0 : Nat) : ℚ) / (1024 : ℚ) ^ 4 ≥ (1 : ℚ)) := by norm_num
  have hga : get_available_name
      { large_drive_threshold_tb := 4, medium_drive_threshold_tb := 1,
        large_names := [], medium_names := [], small_names := [] }
      0 [] =
      (if ((0 : Nat) : ℚ) / (1024 : ℚ) ^ 4 ≥ (4 : ℚ) then ([] : List String)
       else if ((0 : Nat) : ℚ) / (1024 : ℚ) ^ 4 ≥ (1 : ℚ) then []
       else []).find?
        (fun name => !(([] : List String).contains name.toUpper)) := rfl
  rw [hga, if_neg h4, if_neg h1]
  rfl

theorem C6_witness :
    process_drive
      { large_drive_threshold_tb := 4, medium_drive_threshold_tb := 1,
        large_names := [], medium_names := [], small_names := [] }
      { descriptor :=
          { device_identifier := "disk5s1", volume_uuid := "U-5",
            volume_name := "Tiny", mount_point := "/Volumes/Tiny",
            capacity_bytes := 0, free_bytes := 0, file_system := "apfs" },
        tree := [], responses := [], now := "t0" }
      { registry := [], saved := [] } =
      ({ registry := [], saved := [] }, none) :=
  (C6_theorem
    { large_drive_threshold_tb := 4, medium_drive_threshold_tb := 1,
      large_names := [], medium_names := [], small_names := [] }
    { descriptor :=
        { device_identifier := "disk5s1", volume_uuid := "U-5",
          volume_name := "Tiny", mount_point := "/Volumes/Tiny",
          capacity_bytes := 0, free_bytes := 0, file_system := "apfs" },
      tree := [], responses := [], now := "t0" }
    [] { registry := [], saved := [] } rfl C6_eval).1

/-! ### Claim C7 (registration shape and registry id invariant) -/

/-- Claim C7: registering a drive appends exactly one entry — id the
uppercase of the confirmed name, kind `external_drive`,
`first_seen = last_scanned = now`, status `active` — and persists the
registry at once; every state reachable from the empty registry by the
program's operations (registration only ever admitted for a name whose
uppercase form is not a used id) has case-insensitively distinct ids; and
neither operation changes an existing entry's id. -/
theorem C7_theorem :
    (∀ (s : ScannerState) (d : VolumeDescriptor) (name now : String),
      (register_new_drive s d name now).1.registry =
        s.registry ++
          [{ id := name.toUpper, kind := "external_drive",
             volume_uuid := d.volume_uuid,
             device_identifier := d.device_identifier, name := name,
             capacity_bytes := d.capacity_bytes, first_seen := now,
             last_scanned := now, status := "active" }] ∧
      (register_new_drive s d name now).1.saved =
        (register_new_drive s d name now).1.registry ∧
      (register_new_drive s d name now).2 = name.toUpper) ∧
    (∀ s : ScannerState, Reachable s →
      s.registry.Pairwise (fun a b => a.id.toUpper ≠ b.id.toUpper)) ∧
    (∀ (s : ScannerState) (drive_id now : String),
      (update_last_scanned s drive_id now).registry.map (fun e => e.id) =
        s.registry.map (fun e => e.id)) ∧
    (∀ (s : ScannerState) (d : VolumeDescriptor) (name now : String),
      (register_new_drive s d name now).1.registry.map (fun e => e.id) =
        s.registry.map (fun e => e.id) ++ [name.toUpper]) := by
  refine ⟨fun s d name now => ⟨rfl, rfl, rfl⟩, ?_, ?_, ?_⟩
  · intro s hs
    obtain ⟨hfix, hnodup⟩ := reachable_inv hs
    have hpair : s.registry.Pairwise (fun a b => a.id ≠ b.id) :=
      (List.pairwise_map.mp hnodup)
    refine hpair.imp_of_mem ?_
    intro a b ha hb hne
    rw [hfix a ha, hfix b hb]
    exact hne
  · intro s drive_id now
    exact update_map_id s.registry drive_id now
  · intro s d name now
    simp [register_new_drive]

theorem C7_witness :
    ({ registry :=
        [{ id := "NOVA", kind := "external_drive", volume_uuid := "U-1",
           device_identifier := "disk2s1", name := "Nova", capacity_bytes := 9,
           first_seen := "t0", last_scanned := "t0", status := "active" },
         { id := "ARES", kind := "external_drive", volume_uuid := "U-2",
           device_identifier := "disk3s1", name := "ares", capacity_bytes := 9,
           first_seen := "t1", last_scanned := "t1", status := "active" }],
       saved :=
        [{ id := "NOVA", kind := "external_drive", volume_uuid := "U-1",
           device_identifier := "disk2s1", name := "Nova", capacity_bytes := 9,
           first_seen := "t0", last_scanned := "t0", status := "active" },
         { id := "ARES", kind := "external_drive", volume_uuid := "U-2",
           device_identifier := "disk3s1", name := "ares", capacity_bytes := 9,
           first_seen := "t1", last_scanned := "t1", status := "active" }] } :
      ScannerState).registry.Pairwise
        (fun a b => a.id.toUpper ≠ b.id.toUpper) := by
  have huNova : String.toUpper ("Nova") = "NOVA" := by
    simp only [String.toUpper, String.map_eq]
    decide
  have huAres : String.toUpper ("ares") = "ARES" := by
    simp only [String.toUpper, String.map_eq]
    decide
  have h1 : Reachable { registry := [], saved := [] } := Reachable.init
  have h2 := Reachable.register { registry := [], saved := [] }
    { device_identifier := "disk2s1", volume_uuid := "U-1",
      volume_name := "Nova", mount_point := "/Volumes/Nova",
      capacity_bytes := 9, free_bytes := 0, file_system := "apfs" }
    "Nova" "t0" h1 (by simp [get_used_names])
  have h3 := Reachable.register _
    { device_identifier := "disk3s1", volume_uuid := "U-2",
      volume_name := "Ares", mount_point := "/Volumes/Ares",
      capacity_bytes := 9, free_bytes := 0, file_system := "apfs" }
    "ares" "t1" h2
    (by simp [get_used_names, register_new_drive, huAres, huNova])
  have := C7_theorem.2.1 _ h3
  simpa [register_new_drive, huNova, huAres] using this

/-! ### Claim C10 (negative depth bound) -/

/-- Claim C10: with a negative `max_depth` the depth guard rejects the
root itself, so the scan emits nothing. -/
theorem C10_theorem (maxDepth : Int) (tree : List Entry) (h : maxDepth < 0) :
    scan_directory_tree maxDepth tree = [] := by
  have h0 : ((0 : Nat) : Int) > maxDepth := by simpa using h
  unfold scan_directory_tree scanRecursive
  rw [if_pos h0]

theorem C10_witness :
    scan_directory_tree (-1) [Entry.file ("f") 3] = [] :=
  C10_theorem (-1) [Entry.file ("f") 3] (by decide)

/-! ### Helper lemmas: rendered paths -/

theorem joinSegs_cons_cons (s y : String) (ys : List String) :
    joinSegs (s :: y :: ys) = s ++ "/" ++ joinSegs (y :: ys) := rfl

theorem joinSegs_cons_data (s : String) (rest : List String) (hr : rest ≠ []) :
    (joinSegs (s :: rest)).data = s.data ++ '/' :: (joinSegs rest).data := by
  cases rest with
  | nil => exact absurd rfl hr
  | cons y ys =>
    rw [joinSegs_cons_cons]
    simp [String.data_append]

theorem sep_split : ∀ {a b r s : List Char}, '/' ∉ a → '/' ∉ b →
    a ++ '/' :: r = b ++ '/' :: s → a = b ∧ r = s := by
  intro a
  induction a with
  | nil =>
    intro b r s _ hb h
    cases b with
    | nil => simpa using h
    | cons c b' =>
      simp only [List.nil_append, List.cons_append, List.cons.injEq] at h
      refine absurd ?_ hb
      rw [← h.1]
      exact List.mem_cons_self _ _
  | cons c a' ih =>
    intro b r s ha hb h
    cases b with
    | cons e b' =>
      simp only [List.cons_append, List.cons.injEq] at h
      obtain ⟨rfl, h2⟩ := h
      have := ih (fun hm => ha (List.mem_cons_of_mem _ hm))
        (fun hm => hb (List.mem_cons_of_mem _ hm)) h2
      exact ⟨by rw [this.1], this.2⟩
    | nil =>
      simp only [List.cons_append, List.nil_append, List.cons.injEq] at h
      refine absurd ?_ ha
      rw [← h.1]
      exact List.mem_cons_self _ _

theorem validSeg_data_ne {s : String} (h : validSeg s) : s.data ≠ [] := by
  intro hd
  exact h.1 (String.ext hd)

theorem joinSegs_ne_root {y : String} {ys : List String} (hvy : validSeg y) :
    joinSegs (y :: ys) ≠ "/" := by
  intro heq
  cases hy : y.data with
  | nil => exact validSeg_data_ne hvy hy
  | cons c cs =>
    have hhd : (joinSegs (y :: ys)).data.head? = some c := by
      cases ys with
      | nil => simp [joinSegs, hy]
      | cons y2 ys2 =>
        rw [joinSegs_cons_data y (y2 :: ys2) (by simp), hy]
        simp
    rw [heq] at hhd
    have hc : c = '/' := by
      have h2 : (['/'] : List Char).head? = some c := hhd
      simpa using h2.symm
    refine hvy.2 ?_
    rw [hy, hc]
    exact List.mem_cons_self _ _

theorem joinSegs_inj : ∀ {l1 l2 : List String}, (∀ s ∈ l1, validSeg s) →
    (∀ s ∈ l2, validSeg s) → l1 ≠ [] → l2 ≠ [] →
    joinSegs l1 = joinSegs l2 → l1 = l2 := by
  intro l1
  induction l1 with
  | nil => intro _ _ _ h1 _ _; exact absurd rfl h1
  | cons x xs ih =>
    intro l2 hv1 hv2 _ hn2 heq
    cases l2 with
    | nil => exact absurd rfl hn2
    | cons y ys =>
      have hvx := hv1 x (List.mem_cons_self x xs)
      have hvy := hv2 y (List.mem_cons_self y ys)
      cases xs with
      | nil =>
        cases ys with
        | nil => simpa [joinSegs] using heq
        | cons z zs =>
          exfalso
          have hd : x.data = y.data ++ '/' :: (joinSegs (z :: zs)).data := by
            have := congrArg String.data heq
            rwa [joinSegs_cons_data y (z :: zs) (by simp)] at this
          exact hvx.2 (hd ▸ List.mem_append_right _ (List.mem_cons_self _ _))
      | cons x2 xs2 =>
        cases ys with
        | nil =>
          exfalso
          have hd : y.data = x.data ++ '/' :: (joinSegs (x2 :: xs2)).data := by
            have := congrArg String.data heq.symm
            rwa [joinSegs_cons_data x (x2 :: xs2) (by simp)] at this
          exact hvy.2 (hd ▸ List.mem_append_right _ (List.mem_cons_self _ _))
        | cons y2 ys2 =>
          have hd := congrArg String.data heq
          rw [joinSegs_cons_data x (x2 :: xs2) (by simp),
            joinSegs_cons_data y (y2 :: ys2) (by simp)] at hd
          have hsplit := sep_split hvx.2 hvy.2 hd
          have hx : x = y := String.ext hsplit.1
          have hrest : (x2 :: xs2) = (y2 :: ys2) :=
            ih (fun s hs => hv1 s (List.mem_cons_of_mem _ hs))
              (fun s hs => hv2 s (List.mem_cons_of_mem _ hs))
              (by simp) (by simp) (String.ext hsplit.2)
          rw [hx, hrest]

theorem renderPath_inj {l1 l2 : List String} (hv1 : ∀ s ∈ l1, validSeg s)
    (hv2 : ∀ s ∈ l2, validSeg s) (heq : renderPath l1 = renderPath l2) :
    l1 = l2 := by
  unfold renderPath at heq
  by_cases h1 : l1 = []
  · by_cases h2 : l2 = []
    · rw [h1, h2]
    · rw [if_pos h1, if_neg h2] at heq
      cases l2 with
      | nil => exact absurd rfl h2
      | cons y ys =>
        exact absurd heq.symm
          (joinSegs_ne_root (hv2 y (List.mem_cons_self y ys)))
  · by_cases h2 : l2 = []
    · rw [if_neg h1, if_pos h2] at heq
      cases l1 with
      | nil => exact absurd rfl h1
      | cons x xs =>
        exact absurd heq (joinSegs_ne_root (hv1 x (List.mem_cons_self x xs)))
    · rw [if_neg h1, if_neg h2] at heq
      exact joinSegs_inj hv1 hv2 h1 h2 heq

/-! ### Helper lemmas: ghost scan correspondence and localization -/

theorem scan_eq_map (maxDepth : Int) (cs : List Entry) (segs : List String)
    (depth : Nat) :
    scanRecursive maxDepth cs segs depth =
      (scanS maxDepth cs segs depth).map renderInfo := by
  refine scanRecursive.induct maxDepth
    (fun cs segs depth => scanRecursive maxDepth cs segs depth =
      (scanS maxDepth cs segs depth).map renderInfo)
    (fun cs segs depth => scanChildren maxDepth cs segs depth =
      (scanChildrenS maxDepth cs segs depth).map renderInfo)
    ?_ ?_ ?_ ?_ ?_ cs segs depth
  · intro cs segs depth h
    rw [scanRecursive, scanS, if_pos h, if_pos h]
    rfl
  · intro cs segs depth h ih
    rw [scanRecursive, scanS, if_neg h, if_neg h]
    by_cases hlt : (depth : Int) < maxDepth
    · rw [if_pos hlt, if_pos hlt, ih]
      rfl
    · rw [if_neg hlt, if_neg hlt]
      rfl
  · intro segs depth
    rw [scanChildren, scanChildrenS]
    rfl
  · intro segs depth name sz rest ih
    rw [scanChildren, scanChildrenS]
    exact ih
  · intro segs depth name ccs rest ih1 ih2
    rw [scanChildren, scanChildrenS, ih1, ih2, List.map_append]

theorem mem_scanChildrenS {maxDepth : Int} :
    ∀ {cs : List Entry} {segs : List String} {depth : Nat} {e : DirInfoS},
    e ∈ scanChildrenS maxDepth cs segs depth →
    ∃ n ccs, Entry.dir n ccs ∈ cs ∧
      e ∈ scanS maxDepth ccs (segs ++ [n]) (depth + 1) := by
  intro cs
  induction cs with
  | nil =>
    intro segs depth e he
    rw [scanChildrenS] at he
    exact absurd he (List.not_mem_nil e)
  | cons c rest ih =>
    intro segs depth e he
    cases c with
    | file n sz =>
      rw [scanChildrenS] at he
      obtain ⟨n', ccs, hmem, hsub⟩ := ih he
      exact ⟨n', ccs, List.mem_cons_of_mem _ hmem, hsub⟩
    | dir n ccs =>
      rw [scanChildrenS] at he
      rcases List.mem_append.mp he with he | he
      · exact ⟨n, ccs, List.mem_cons_self _ _, he⟩
      · obtain ⟨n', ccs', hmem, hsub⟩ := ih he
        exact ⟨n', ccs', List.mem_cons_of_mem _ hmem, hsub⟩

/-! ### Helper lemmas: directory lookup -/

theorem findDir_some_mem : ∀ {cs : List Entry} {n : String} {ccs : List Entry},
    findDir cs n = some ccs → Entry.dir n ccs ∈ cs := by
  intro cs
  induction cs with
  | nil => intro n ccs h; exact absurd h (by rw [findDir]; simp)
  | cons c rest ih =>
    intro n ccs h
    cases c with
    | file m sz =>
      rw [findDir] at h
      exact List.mem_cons_of_mem _ (ih h)
    | dir m ccs' =>
      rw [findDir] at h
      by_cases hm : m = n
      · rw [if_pos hm] at h
        obtain rfl : ccs' = ccs := by injection h
        rw [← hm]
        exact List.mem_cons_self _ _
      · rw [if_neg hm] at h
        exact List.mem_cons_of_mem _ (ih h)

theorem findDir_of_mem_nodup : ∀ {cs : List Entry} {n : String}
    {ccs : List Entry}, (cs.map entryName).Nodup → Entry.dir n ccs ∈ cs →
    findDir cs n = some ccs := by
  intro cs
  induction cs with
  | nil => intro n ccs _ h; exact absurd h (List.not_mem_nil _)
  | cons c rest ih =>
    intro n ccs hnd hmem
    have hnd' : (rest.map entryName).Nodup := (List.nodup_cons.mp hnd).2
    have hhead : entryName c ∉ rest.map entryName := (List.nodup_cons.mp hnd).1
    rcases List.mem_cons.mp hmem with rfl | hmem2
    · rw [findDir, if_pos rfl]
    · cases c with
      | file m sz => rw [findDir]; exact ih hnd' hmem2
      | dir m ccs' =>
        have hne : m ≠ n := by
          intro hmn
          refine hhead ?_
          rw [show entryName (Entry.dir m ccs') = m from rfl, hmn]
          exact List.mem_map.mpr ⟨Entry.dir n ccs, hmem2, rfl⟩
        rw [findDir, if_neg hne]
        exact ih hnd' hmem2

theorem findDir_size : ∀ {cs : List Entry} {n : String} {ccs : List Entry},
    findDir cs n = some ccs →
    (dirSizeFiles ccs).1 ≤ (dirSizeFiles cs).1 ∧
      (dirSizeFiles ccs).2 ≤ (dirSizeFiles cs).2 := by
  intro cs
  induction cs with
  | nil => intro n ccs h; exact absurd h (by rw [findDir]; simp)
  | cons c rest ih =>
    intro n ccs h
    cases c with
    | file m sz =>
      rw [findDir] at h
      have := ih h
      rw [dirSizeFiles]
      exact ⟨this.1.trans (by simp), this.2.trans (by simp)⟩
    | dir m ccs' =>
      rw [findDir] at h
      by_cases hm : m = n
      · rw [if_pos hm] at h
        obtain rfl : ccs' = ccs := by injection h
        rw [dirSizeFiles]
        exact ⟨by simp, by simp⟩
      · rw [if_neg hm] at h
        have := ih h
        rw [dirSizeFiles]
        exact ⟨this.1.trans (by simp), this.2.trans (by simp)⟩

theorem lookupDir_append : ∀ (p q : List String) (cs : List Entry),
    lookupDir cs (p ++ q) = (lookupDir cs p).bind (fun ds => lookupDir ds q) := by
  intro p
  induction p with
  | nil => intro q cs; rfl
  | cons n rest ih =>
    intro q cs
    rw [List.cons_append, lookupDir, lookupDir]
    cases h : findDir cs n with
    | none => rfl
    | some ccs => exact ih q ccs

theorem lookupDir_size : ∀ (p : List String) {cs ds : List Entry},
    lookupDir cs p = some ds →
    (dirSizeFiles ds).1 ≤ (dirSizeFiles cs).1 ∧
      (dirSizeFiles ds).2 ≤ (dirSizeFiles cs).2 := by
  intro p
  induction p with
  | nil =>
    intro cs ds h
    obtain rfl : cs = ds := by rw [lookupDir] at h; injection h
    exact ⟨le_refl _, le_refl _⟩
  | cons n rest ih =>
    intro cs ds h
    rw [lookupDir] at h
    cases hf : findDir cs n with
    | none => rw [hf] at h; exact absurd h (by simp)
    | some ccs =>
      rw [hf] at h
      have h1 := findDir_size hf
      have h2 := ih h
      exact ⟨h2.1.trans h1.1, h2.2.trans h1.2⟩

/-! ### Helper lemmas: well-formedness unpacking -/

theorem wfTree_nodup {cs : List Entry} (h : wfTree cs = true) :
    (cs.map entryName).Nodup := by
  unfold wfTree at h
  rw [Bool.and_eq_true] at h
  simpa using h.1

theorem wfTree_wfList {cs : List Entry} (h : wfTree cs = true) :
    wfList cs = true := by
  unfold wfTree at h
  rw [Bool.and_eq_true] at h
  exact h.2

theorem wfList_mem : ∀ {cs : List Entry}, wfList cs = true →
    ∀ c ∈ cs, wfEntry c = true := by
  intro cs
  induction cs with
  | nil => intro _ c hc; exact absurd hc (List.not_mem_nil c)
  | cons x rest ih =>
    intro h c hc
    rw [wfList, Bool.and_eq_true] at h
    rcases List.mem_cons.mp hc with rfl | hc
    · exact h.1
    · exact ih h.2 c hc

theorem wfEntry_dir {n : String} {ccs : List Entry}
    (h : wfEntry (Entry.dir n ccs) = true) :
    validSeg n ∧ wfTree ccs = true := by
  rw [wfEntry, Bool.and_eq_true, Bool.and_eq_true] at h
  refine ⟨of_decide_eq_true h.1.1, ?_⟩
  rw [wfTree, Bool.and_eq_true]
  exact ⟨h.1.2, h.2⟩

theorem wfTree_valid {cs : List Entry} (h : wfTree cs = true) :
    ∀ c ∈ cs, validSeg (entryName c) := by
  intro c hc
  have := wfList_mem (wfTree_wfList h) c hc
  cases c with
  | file n sz =>
    rw [wfEntry] at this
    exact of_decide_eq_true this
  | dir n ccs => exact (wfEntry_dir this).1

theorem wfTree_sub {cs : List Entry} {n : String} {ccs : List Entry}
    (h : wfTree cs = true) (hmem : Entry.dir n ccs ∈ cs) :
    wfTree ccs = true :=
  (wfEntry_dir (wfList_mem (wfTree_wfList h) _ hmem)).2

theorem lookupDir_wf_valid : ∀ (p : List String) {cs ds : List Entry},
    wfTree cs = true → lookupDir cs p = some ds →
    (∀ s ∈ p, validSeg s) ∧ wfTree ds = true := by
  intro p
  induction p with
  | nil =>
    intro cs ds hwf h
    obtain rfl : cs = ds := by rw [lookupDir] at h; injection h
    exact ⟨by intro s hs; exact absurd hs (List.not_mem_nil s), hwf⟩
  | cons n rest ih =>
    intro cs ds hwf h
    rw [lookupDir] at h
    cases hf : findDir cs n with
    | none => rw [hf] at h; exact absurd h (by simp)
    | some ccs =>
      rw [hf] at h
      have hmem := findDir_some_mem hf
      have hvn : validSeg n := by
        have := wfTree_valid hwf _ hmem
        simpa [entryName] using this
      have hsub := wfTree_sub hwf hmem
      obtain ⟨hval, hwfd⟩ := ih hsub h
      refine ⟨?_, hwfd⟩
      intro s hs
      rcases List.mem_cons.mp hs with rfl | hs
      · exact hvn
      · exact hval s hs

/-! ### Helper lemmas: the scan's emitted records -/

theorem sizeOf_sub_lt {cs : List Entry} {n : String} {ccs : List Entry}
    (h : Entry.dir n ccs ∈ cs) : sizeOf ccs < sizeOf cs := by
  have h1 := List.sizeOf_lt_of_mem h
  have h2 : sizeOf ccs < sizeOf (Entry.dir n ccs) := by
    simp [Entry.dir.sizeOf_spec]
  omega

theorem scanS_spec {maxDepth : Int} : ∀ (N : Nat) (cs : List Entry),
    sizeOf cs ≤ N → ∀ (segs : List String) (depth : Nat) (e : DirInfoS),
    wfTree cs = true → e ∈ scanS maxDepth cs segs depth →
    ∃ extra ds, e.segs = segs ++ extra ∧ lookupDir cs extra = some ds ∧
      e.size_bytes = (dirSizeFiles ds).1 ∧ e.file_count = (dirSizeFiles ds).2 ∧
      e.depth = depth + extra.length := by
  intro N
  induction N with
  | zero =>
    intro cs h
    exfalso
    cases cs <;> simp at h
  | succ N ih =>
    intro cs hcs segs depth e hwf he
    rw [scanS] at he
    by_cases hgt : (depth : Int) > maxDepth
    · rw [if_pos hgt] at he
      exact absurd he (List.not_mem_nil e)
    · rw [if_neg hgt] at he
      rcases List.mem_cons.mp he with rfl | he2
      · exact ⟨[], cs, by simp, rfl, rfl, rfl, by simp⟩
      · by_cases hlt : (depth : Int) < maxDepth
        · rw [if_pos hlt] at he2
          obtain ⟨n, ccs, hmem, hsub⟩ := mem_scanChildrenS he2
          have hsz : sizeOf ccs ≤ N := by
            have := sizeOf_sub_lt hmem
            omega
          obtain ⟨extra, ds, h1, h2, h3, h4, h5⟩ :=
            ih ccs hsz (segs ++ [n]) (depth + 1) e (wfTree_sub hwf hmem) hsub
          refine ⟨n :: extra, ds, ?_, ?_, h3, h4, ?_⟩
          · rw [h1]
            simp
          · rw [lookupDir, findDir_of_mem_nodup (wfTree_nodup hwf) hmem]
            exact h2
          · rw [h5]
            simp only [List.length_cons]
            omega
        · rw [if_neg hlt] at he2
          exact absurd he2 (List.not_mem_nil e)

theorem dirSizeFiles_eq : ∀ cs : List Entry,
    dirSizeFiles cs = ((fileSizesUnder cs).sum, (fileSizesUnder cs).length) := by
  intro cs
  induction cs using dirSizeFiles.induct with
  | case1 => simp [dirSizeFiles, fileSizesUnder]
  | case2 name sz rest ih =>
    rw [dirSizeFiles, fileSizesUnder, ih]
    simp [Nat.add_comm]
  | case3 name ccs rest ih1 ih2 =>
    rw [dirSizeFiles, fileSizesUnder, ih1, ih2]
    simp

/-! ### Claim C4 (aggregation is not bounded by the depth limit) -/

/-- Claim C4: every emitted record reports as `size_bytes`/`file_count`
the sum of the sizes and the number of all regular files at any depth
beneath the directory the record's relative path denotes, independent of
`max_depth`; with `max_depth = 0` the scan is exactly the root record
carrying the whole tree's file total. -/
theorem C4_theorem (maxDepth : Int) (cs : List Entry) (h0 : 0 ≤ maxDepth)
    (hwf : wfTree cs = true) :
    (∀ e ∈ scan_directory_tree maxDepth cs,
      ∃ sa ds, e.relative_path = renderPath sa ∧ lookupDir cs sa = some ds ∧
        e.size_bytes = (fileSizesUnder ds).sum ∧
        e.file_count = (fileSizesUnder ds).length ∧ e.depth = sa.length) ∧
    scan_directory_tree 0 cs =
      [{ relative_path := "/", depth := 0,
         size_bytes := (fileSizesUnder cs).sum,
         file_count := (fileSizesUnder cs).length }] := by
  constructor
  · intro e he
    rw [scan_directory_tree, scan_eq_map] at he
    obtain ⟨e', he', rfl⟩ := List.mem_map.mp he
    obtain ⟨extra, ds, h1, h2, h3, h4, h5⟩ :=
      scanS_spec (sizeOf cs) cs (le_refl _) [] 0 e' hwf he'
    refine ⟨e'.segs, ds, rfl, ?_, ?_, ?_, ?_⟩
    · rw [h1]
      simpa using h2
    · show e'.size_bytes = _
      rw [h3, dirSizeFiles_eq]
    · show e'.file_count = _
      rw [h4, dirSizeFiles_eq]
    · show e'.depth = _
      rw [h5, h1]
      simp
  · rw [scan_directory_tree, scanRecursive, if_neg (by norm_num),
      if_neg (by norm_num), dirSizeFiles_eq]
    rfl

theorem C4_wf :
    wfTree [Entry.dir ("a") [Entry.file ("f") 10], Entry.file ("g") 5] = true := by
  simp only [wfTree, wfList, wfEntry, entryName, Bool.and_eq_true,
    decide_eq_true_eq]
  decide

theorem C4_witness :
    scan_directory_tree 0 [Entry.dir ("a") [Entry.file ("f") 10], Entry.file ("g") 5] =
      [{ relative_path := "/", depth := 0,
         size_bytes :=
           (fileSizesUnder
             [Entry.dir ("a") [Entry.file ("f") 10], Entry.file ("g") 5]).sum,
         file_count :=
           (fileSizesUnder
             [Entry.dir ("a") [Entry.file ("f") 10], Entry.file ("g") 5]).length }] :=
  (C4_theorem 1 [Entry.dir ("a") [Entry.file ("f") 10], Entry.file ("g") 5]
    (by norm_num) C4_wf).2

/-! ### Helper lemmas: emission count and depth bound -/

theorem numDirsChildren_zero {maxDepth : Int} {depth : Nat}
    (h : maxDepth ≤ (depth : Int)) :
    ∀ cs : List Entry, numDirsChildren maxDepth depth cs = 0 := by
  intro cs
  induction cs with
  | nil => rw [numDirsChildren]
  | cons c rest ih =>
    cases c with
    | file n sz =>
      rw [numDirsChildren]
      exact ih
    | dir n ccs =>
      rw [numDirsChildren, numDirsUpTo, if_pos (by push_cast; omega), ih]

theorem scan_length (maxDepth : Int) (cs : List Entry) (segs : List String)
    (depth : Nat) :
    (scanRecursive maxDepth cs segs depth).length = numDirsUpTo maxDepth depth cs := by
  refine scanRecursive.induct maxDepth
    (fun cs segs depth => (scanRecursive maxDepth cs segs depth).length =
      numDirsUpTo maxDepth depth cs)
    (fun cs segs depth => (scanChildren maxDepth cs segs depth).length =
      numDirsChildren maxDepth depth cs)
    ?_ ?_ ?_ ?_ ?_ cs segs depth
  · intro cs segs depth h
    rw [scanRecursive, numDirsUpTo, if_pos h, if_pos h]
    rfl
  · intro cs segs depth h ih
    rw [scanRecursive, numDirsUpTo, if_neg h, if_neg h]
    by_cases hlt : (depth : Int) < maxDepth
    · rw [if_pos hlt]
      simp only [List.length_cons, ih]
      omega
    · rw [if_neg hlt, numDirsChildren_zero (by omega)]
      rfl
  · intro segs depth
    rw [scanChildren, numDirsChildren]
    rfl
  · intro segs depth name sz rest ih
    rw [scanChildren, numDirsChildren]
    exact ih
  · intro segs depth name ccs rest ih1 ih2
    rw [scanChildren, numDirsChildren, List.length_append, ih1, ih2]

theorem scan_depth_le (maxDepth : Int) (cs : List Entry) (segs : List String)
    (depth : Nat) :
    ∀ e ∈ scanRecursive maxDepth cs segs depth, (e.depth : Int) ≤ maxDepth := by
  refine scanRecursive.induct maxDepth
    (fun cs segs depth => ∀ e ∈ scanRecursive maxDepth cs segs depth,
      (e.depth : Int) ≤ maxDepth)
    (fun cs segs depth => ∀ e ∈ scanChildren maxDepth cs segs depth,
      (e.depth : Int) ≤ maxDepth)
    ?_ ?_ ?_ ?_ ?_ cs segs depth
  · intro cs segs depth h e he
    rw [scanRecursive, if_pos h] at he
    exact absurd he (List.not_mem_nil e)
  · intro cs segs depth h ih e he
    rw [scanRecursive, if_neg h] at he
    rcases List.mem_cons.mp he with rfl | he2
    · show ((depth : Int)) ≤ maxDepth
      omega
    · by_cases hlt : (depth : Int) < maxDepth
      · rw [if_pos hlt] at he2
        exact ih e he2
      · rw [if_neg hlt] at he2
        exact absurd he2 (List.not_mem_nil e)
  · intro segs depth e he
    rw [scanChildren] at he
    exact absurd he (List.not_mem_nil e)
  · intro segs depth name sz rest ih e he
    rw [scanChildren] at he
    exact ih e he
  · intro segs depth name ccs rest ih1 ih2 e he
    rw [scanChildren] at he
    rcases List.mem_append.mp he with he | he
    · exact ih1 e he
    · exact ih2 e he

/-! ### Helper lemmas: pre-order of the emitted records -/

theorem scanS_pairwise_of {maxDepth : Int} {cs : List Entry}
    {segs : List String} {depth : Nat} (hwf : wfTree cs = true)
    (hch : (scanChildrenS maxDepth cs segs depth).Pairwise
      (fun x y => ¬ (y.segs <+: x.segs ∧ y.segs ≠ x.segs))) :
    (scanS maxDepth cs segs depth).Pairwise
      (fun x y => ¬ (y.segs <+: x.segs ∧ y.segs ≠ x.segs)) := by
  rw [scanS]
  by_cases hgt : (depth : Int) > maxDepth
  · rw [if_pos hgt]
    exact List.Pairwise.nil
  · rw [if_neg hgt]
    refine List.pairwise_cons.mpr ⟨?_, ?_⟩
    · intro y hy
      by_cases hlt : (depth : Int) < maxDepth
      · rw [if_pos hlt] at hy
        obtain ⟨n, ccs, hmem, hsub⟩ := mem_scanChildrenS hy
        obtain ⟨extra, ds, h1, -, -, -, -⟩ :=
          scanS_spec (sizeOf ccs) ccs (le_refl _) (segs ++ [n]) (depth + 1) y
            (wfTree_sub hwf hmem) hsub
        rintro ⟨hpre, -⟩
        have hlen := hpre.length_le
        rw [h1] at hlen
        simp at hlen
      · rw [if_neg hlt] at hy
        exact absurd hy (List.not_mem_nil y)
    · by_cases hlt : (depth : Int) < maxDepth
      · rw [if_pos hlt]
        exact hch
      · rw [if_neg hlt]
        exact List.Pairwise.nil

theorem scanChildrenS_pairwise {maxDepth : Int} : ∀ (N : Nat) (cs : List Entry),
    sizeOf cs ≤ N → ∀ (segs : List String) (depth : Nat),
    (cs.map entryName).Nodup → wfList cs = true →
    (scanChildrenS maxDepth cs segs depth).Pairwise
      (fun x y => ¬ (y.segs <+: x.segs ∧ y.segs ≠ x.segs)) := by
  intro N
  induction N with
  | zero =>
    intro cs h
    exfalso
    cases cs <;> simp at h
  | succ N ih =>
    intro cs hcs segs depth hnd hwl
    cases cs with
    | nil =>
      rw [scanChildrenS]
      exact List.Pairwise.nil
    | cons c rest =>
      have hszrest : sizeOf rest ≤ N := by
        have h1 : sizeOf (c :: rest) = 1 + sizeOf c + sizeOf rest := by
          simp
        have hc : 0 < sizeOf c := by
          cases c <;> simp
        omega
      have hndrest : (rest.map entryName).Nodup := by
        rw [List.map_cons, List.nodup_cons] at hnd
        exact hnd.2
      have hhead : entryName c ∉ rest.map entryName := by
        rw [List.map_cons, List.nodup_cons] at hnd
        exact hnd.1
      rw [wfList, Bool.and_eq_true] at hwl
      cases c with
      | file n sz =>
        rw [scanChildrenS]
        exact ih rest hszrest segs depth hndrest hwl.2
      | dir n ccs =>
        have hwfccs : wfTree ccs = true := (wfEntry_dir hwl.1).2
        have hszccs : sizeOf ccs ≤ N := by
          have h1 : sizeOf ccs < sizeOf (Entry.dir n ccs) := by
            simp [Entry.dir.sizeOf_spec]
          have h2 : sizeOf (Entry.dir n ccs) ≤ sizeOf (Entry.dir n ccs :: rest) := by
            simp
            omega
          omega
        rw [scanChildrenS, List.pairwise_append]
        refine ⟨?_, ih rest hszrest segs depth hndrest hwl.2, ?_⟩
        · exact scanS_pairwise_of hwfccs
            (ih ccs hszccs (segs ++ [n]) (depth + 1) (wfTree_nodup hwfccs)
              (wfTree_wfList hwfccs))
        · intro x hx y hy
          obtain ⟨n', ccs', hmem', hsub'⟩ := mem_scanChildrenS hy
          have hwfccs' : wfTree ccs' = true :=
            (wfEntry_dir (wfList_mem hwl.2 _ hmem')).2
          obtain ⟨ex, dsx, hx1, -, -, -, -⟩ :=
            scanS_spec (sizeOf ccs) ccs (le_refl _) (segs ++ [n]) (depth + 1) x
              hwfccs hx
          obtain ⟨ey, dsy, hy1, -, -, -, -⟩ :=
            scanS_spec (sizeOf ccs') ccs' (le_refl _) (segs ++ [n']) (depth + 1)
              y hwfccs' hsub'
          have hne : n ≠ n' := by
            intro hnn
            refine hhead ?_
            rw [show entryName (Entry.dir n ccs) = n from rfl, hnn]
            exact List.mem_map.mpr ⟨Entry.dir n' ccs', hmem', rfl⟩
          rintro ⟨hpre, -⟩
          have hp1 : segs ++ [n'] <+: x.segs := by
            refine List.IsPrefix.trans ?_ hpre
            rw [hy1]
            exact List.prefix_append _ _
          have hp2 : segs ++ [n] <+: x.segs := by
            rw [hx1]
            exact List.prefix_append _ _
          have heqp : segs ++ [n'] = segs ++ [n] := by
            rcases List.prefix_or_prefix_of_prefix hp1 hp2 with h | h
            · exact h.eq_of_length (by simp)
            · exact (h.eq_of_length (by simp)).symm
          have := List.append_cancel_left heqp
          simp at this
          exact hne this.symm

/-! ### Claim C5 (bounded emission, count, pre-order) -/

/-- Claim C5: the scan emits one record per directory at depth at most
`max_depth` (so the output length is the number of such directories,
with the root record first, at depth 0 and relative path `/`), no record
exceeds `max_depth`, and the order is depth-first pre-order: no record
ever precedes the record of one of its ancestors. -/
theorem C5_theorem (maxDepth : Int) (cs : List Entry) (h0 : 0 ≤ maxDepth)
    (hwf : wfTree cs = true) :
    (scan_directory_tree maxDepth cs).length = numDirsUpTo maxDepth 0 cs ∧
    (scan_directory_tree maxDepth cs).head? =
      some { relative_path := "/", depth := 0,
             size_bytes := (dirSizeFiles cs).1,
             file_count := (dirSizeFiles cs).2 } ∧
    (∀ e ∈ scan_directory_tree maxDepth cs, (e.depth : Int) ≤ maxDepth) ∧
    (scan_directory_tree maxDepth cs).Pairwise
      (fun x y => ¬ strictDescendantPath y.relative_path x.relative_path) := by
  refine ⟨scan_length maxDepth cs [] 0, ?_, scan_depth_le maxDepth cs [] 0, ?_⟩
  · rw [scan_directory_tree, scanRecursive,
      if_neg (show ¬ (((0 : Nat) : Int) > maxDepth) by push_cast; omega)]
    simp [renderPath]
  · rw [scan_directory_tree, scan_eq_map, List.pairwise_map]
    have hg := @scanS_pairwise_of maxDepth cs [] 0 hwf
      (@scanChildrenS_pairwise maxDepth (sizeOf cs) cs (le_refl _) [] 0
        (wfTree_nodup hwf) (wfTree_wfList hwf))
    refine hg.imp_of_mem ?_
    intro a b ha hb hR hsd
    obtain ⟨sa, sb, hva, hvb, hea, heb, hpre, hne⟩ := hsd
    obtain ⟨extraA, dsA, ha1, ha2, -, -, -⟩ :=
      scanS_spec (sizeOf cs) cs (le_refl _) [] 0 a hwf ha
    obtain ⟨extraB, dsB, hb1, hb2, -, -, -⟩ :=
      scanS_spec (sizeOf cs) cs (le_refl _) [] 0 b hwf hb
    simp only [List.nil_append] at ha1 hb1
    have hvalA : ∀ s ∈ a.segs, validSeg s := by
      rw [ha1]
      exact (lookupDir_wf_valid extraA hwf ha2).1
    have hvalB : ∀ s ∈ b.segs, validSeg s := by
      rw [hb1]
      exact (lookupDir_wf_valid extraB hwf hb2).1
    have hsa : b.segs = sa :=
      renderPath_inj hvalB hva (show renderPath b.segs = renderPath sa from hea)
    have hsb : a.segs = sb :=
      renderPath_inj hvalA hvb (show renderPath a.segs = renderPath sb from heb)
    refine hR ⟨?_, ?_⟩
    · rw [hsa, hsb]
      exact hpre
    · rw [hsa, hsb]
      exact hne

theorem C5_wf : wfTree [Entry.dir ("a") [Entry.file ("f") 10]] = true := by
  simp only [wfTree, wfList, wfEntry, entryName, Bool.and_eq_true,
    decide_eq_true_eq]
  decide

theorem C5_witness :
    (scan_directory_tree 1 [Entry.dir ("a") [Entry.file ("f") 10]]).length =
      numDirsUpTo 1 0 [Entry.dir ("a") [Entry.file ("f") 10]] :=
  (C5_theorem 1 [Entry.dir ("a") [Entry.file ("f") 10]] (by decide) C5_wf).1

/-! ### Claim C8 (monotonic aggregation) -/

/-- Claim C8: among the records of one scan, whenever B's relative path
denotes a directory strictly below the one A's relative path denotes,
A reports at least B's size and at least B's file count. -/
theorem C8_theorem (maxDepth : Int) (cs : List Entry) (hwf : wfTree cs = true)
    (A B : DirInfo) (hA : A ∈ scan_directory_tree maxDepth cs)
    (hB : B ∈ scan_directory_tree maxDepth cs)
    (hdesc : strictDescendantPath A.relative_path B.relative_path) :
    B.size_bytes ≤ A.size_bytes ∧ B.file_count ≤ A.file_count := by
  rw [scan_directory_tree, scan_eq_map] at hA hB
  obtain ⟨a, ha, rfl⟩ := List.mem_map.mp hA
  obtain ⟨b, hb, rfl⟩ := List.mem_map.mp hB
  obtain ⟨sa, sb, hva, hvb, hea, heb, hpre, hne⟩ := hdesc
  obtain ⟨extraA, dsA, ha1, ha2, ha3, ha4, -⟩ :=
    scanS_spec (sizeOf cs) cs (le_refl _) [] 0 a hwf ha
  obtain ⟨extraB, dsB, hb1, hb2, hb3, hb4, -⟩ :=
    scanS_spec (sizeOf cs) cs (le_refl _) [] 0 b hwf hb
  simp only [List.nil_append] at ha1 hb1
  have hvalA : ∀ s ∈ a.segs, validSeg s := by
    rw [ha1]
    exact (lookupDir_wf_valid extraA hwf ha2).1
  have hvalB : ∀ s ∈ b.segs, validSeg s := by
    rw [hb1]
    exact (lookupDir_wf_valid extraB hwf hb2).1
  have hsa : a.segs = sa :=
    renderPath_inj hvalA hva (show renderPath a.segs = renderPath sa from hea)
  have hsb : b.segs = sb :=
    renderPath_inj hvalB hvb (show renderPath b.segs = renderPath sb from heb)
  obtain ⟨t, ht⟩ := hpre
  have hext : extraB = extraA ++ t := by
    rw [← ha1, ← hb1, hsa, hsb, ← ht]
  have hstep : lookupDir dsA t = some dsB := by
    have hcomp := lookupDir_append extraA t cs
    rw [← hext, hb2, ha2] at hcomp
    simpa using hcomp.symm
  have hsz := lookupDir_size t hstep
  constructor
  · show b.size_bytes ≤ a.size_bytes
    rw [ha3, hb3]
    exact hsz.1
  · show b.file_count ≤ a.file_count
    rw [ha4, hb4]
    exact hsz.2

theorem C8_wf :
    wfTree [Entry.dir ("a") [Entry.dir ("b") [Entry.file ("f") 10],
      Entry.file ("g") 20]] = true := by
  simp only [wfTree, wfList, wfEntry, entryName, Bool.and_eq_true,
    decide_eq_true_eq]
  decide

theorem C8_eval :
    scan_directory_tree 2
      [Entry.dir ("a") [Entry.dir ("b") [Entry.file ("f") 10], Entry.file ("g") 20]] =
      [{ relative_path := "/", depth := 0, size_bytes := 30, file_count := 2 },
       { relative_path := "a", depth := 1, size_bytes := 30, file_count := 2 },
       { relative_path := "a/b", depth := 2, size_bytes := 10,
         file_count := 1 }] := by
  simp [scan_directory_tree, scanRecursive, scanChildren, dirSizeFiles,
    renderPath, joinSegs]

theorem C8_witness :
    ({ relative_path := "a/b", depth := 2, size_bytes := 10,
       file_count := 1 } : DirInfo).size_bytes ≤
      ({ relative_path := "a", depth := 1, size_bytes := 30,
         file_count := 2 } : DirInfo).size_bytes ∧
    ({ relative_path := "a/b", depth := 2, size_bytes := 10,
       file_count := 1 } : DirInfo).file_count ≤
      ({ relative_path := "a", depth := 1, size_bytes := 30,
         file_count := 2 } : DirInfo).file_count :=
  C8_theorem 2
    [Entry.dir ("a") [Entry.dir ("b") [Entry.file ("f") 10], Entry.file ("g") 20]]
    C8_wf
    { relative_path := "a", depth := 1, size_bytes := 30, file_count := 2 }
    { relative_path := "a/b", depth := 2, size_bytes := 10, file_count := 1 }
    (by rw [C8_eval]; decide) (by rw [C8_eval]; decide)
    ⟨["a"], ["a", "b"], by decide, by decide, by decide, by decide,
      ⟨["b"], by decide⟩, by decide⟩

end Archivis
